import Mathlib

/-!
Verification of the client-side list state controller of the `junior-frontend`
todo application (main source: the evolved `Todos` page, plus `NewTodo.tsx` and
the earlier `Todos.tsx` variant).

The embedding is a shallow one: every pure helper of the page becomes a Lean
function, and the stateful event-handler code (react-query cache writes,
optimistic mutations, the deferred-delete timers) becomes explicit state
passing over a `SysState` record, with the mutation life-cycle callbacks
(`onMutate` / `onError` / `onSuccess`, timer fire, undo click) composed in the
order the single-threaded event loop runs them.

Modelling conventions:
* A JS `Todo.id` (`number | string`) is the inductive `Ident`; `toKey` is
  JS `String(id)` (for the integer ids the app uses, `String(n)` agrees with
  `Int` pretty printing).
* The react-query cache value (`Todo[] | undefined`) is `Option (List Todo)`;
  `none` is `undefined`.  An empty array is truthy in JS, so truthiness tests
  such as `if (ctx?.prev)` are matches on the `Option`, not emptiness tests.
* `Array.prototype.sort` (ES2019: stable) is `jsSortBy`, a stable insertion
  sort that places each element before the first strictly-greater element of
  the already sorted prefix; for a consistent comparator this is exactly the
  stable sort the spec of `Array.prototype.sort` demands.
  `localeCompare(_, "tr")` on titles is modelled as code-point order; no claim
  under verification depends on the `az` / `za` modes.
* Timers: a pending-delete entry in `pendingDeleteTimers` is the `pending`
  flag of `SysState`; `window.clearTimeout` plus deleting the map entry is
  setting the flag to `false`, and a timer callback can only run while its
  entry is alive, so the fire step is guarded by the flag.
* Remote outcomes are an oracle `outcome : Ident → Bool` (`true` = the HTTP
  call succeeds); issued DELETE calls are accumulated in `issued`.
* Toasts are the `Notif` list; only terminal success/failure/info toasts are
  recorded (the transient `loading` toast of `toast.promise` is not a terminal
  notification).
-/

namespace TodoApp

/-- `Todo.id` is `number | string` in the source. -/
inductive Ident where
  | num (n : Int)
  | str (s : String)
deriving DecidableEq, Repr

/-- Source `toKey`: `String(id)`. -/
def toKey : Ident → String
  | .num n => toString n
  | .str s => s

/-- Source `isTempId`: `typeof id === "string" && id.startsWith("temp-")`. -/
def isTempId : Ident → Bool
  | .num _ => false
  | .str s => s.startsWith "temp-"

/-- Source `Todo` record. -/
structure Todo where
  id : Ident
  title : String
  completed : Bool
deriving DecidableEq, Repr

/-- Source `clampInt(v, min, max) = Math.min(max, Math.max(min, v))`. -/
def clampInt (v lo hi : Int) : Int := min hi (max lo v)

/-- Boolean membership of a key in a key list (models `Set.has` on string keys). -/
def keyMem (k : String) (ks : List String) : Bool := ks.any (fun x => x == k)

/-- Stable insertion into an already sorted prefix: the new element goes in
front of the first element it must strictly precede, hence after every element
it ties with — the position a stable comparator sort gives it. -/
def stableInsert (lt : α → α → Bool) (x : α) : List α → List α
  | [] => [x]
  | y :: ys => if lt x y then x :: y :: ys else y :: stableInsert lt x ys

/-- Model of ES2019 `Array.prototype.sort` with comparator `lt a b ↔ cmp a b < 0`:
a stable sort. -/
def jsSortBy (lt : α → α → Bool) (l : List α) : List α :=
  l.foldl (fun acc x => stableInsert lt x acc) []

/-! ### Local cache operations (source lines around `removeFromCache` /
`restoreIntoCache` of the evolved Todos page). -/

/-- Source `removeFromCache`: filter out every todo whose key is in the id set. -/
def removeFromCache (ids : List Ident) : Option (List Todo) → Option (List Todo)
  | none => none
  | some old => some (old.filter (fun t => !keyMem (toKey t.id) (ids.map toKey)))

/-- `base.splice(idx, 0, item)` for `idx ≤ base.length` (beyond the length JS
appends, which the clamp in the caller prevents anyway). -/
def spliceIn (n : Nat) (x : α) : List α → List α
  | [] => [x]
  | y :: ys =>
    match n with
    | 0 => x :: y :: ys
    | m + 1 => y :: spliceIn m x ys

/-- Comparator `(a, b) => a.idx - b.idx` of the restore loop. -/
def idxLt (a b : Todo × Int) : Bool := decide (a.2 < b.2)

/-- The `for (const z of zipped)` loop of `restoreIntoCache`: skip keys already
present, otherwise splice at the clamped index and record the key. -/
def spliceLoop : List (Todo × Int) → List Todo → List String → List Todo
  | [], base, _ => base
  | (it, idx) :: rest, base, existing =>
    let k := toKey it.id
    if keyMem k existing then spliceLoop rest base existing
    else spliceLoop rest (spliceIn (clampInt idx 0 base.length).toNat it base) (k :: existing)

/-- Source `restoreIntoCache(items, indices?)`. `indices && indices.length ===
items.length` selects the indexed branch; otherwise absent items are prepended. -/
def restoreIntoCache (items : List Todo) (indices : Option (List Int))
    (cache : Option (List Todo)) : Option (List Todo) :=
  let base := cache.getD []
  let existing := base.map (fun t => toKey t.id)
  match indices with
  | some idxs =>
    if idxs.length = items.length then
      some (spliceLoop (jsSortBy idxLt (items.zip idxs)) base existing)
    else
      some (items.filter (fun it => !keyMem (toKey it.id) existing) ++ base)
  | none => some (items.filter (fun it => !keyMem (toKey it.id) existing) ++ base)

/-- Source `findIndex(t => toKey(t.id) === key)`: first matching index or `-1`. -/
def findIndexKey (k : String) : List Todo → Int
  | [] => -1
  | t :: ts =>
    if toKey t.id = k then 0
    else
      let r := findIndexKey k ts
      if r = -1 then -1 else r + 1

/-- `NewTodo.tsx` create `onSuccess` cache step: `if (!old) return [newTodo];
if (old.some(t => t.id === newTodo.id)) return old; return [newTodo, ...old]`.
Note the strict `===` comparison on the raw identifier. -/
def createInsert (newTodo : Todo) : Option (List Todo) → Option (List Todo)
  | none => some [newTodo]
  | some old =>
    if old.any (fun t => t.id == newTodo.id) then some old else some (newTodo :: old)

/-- Selection pruning effect (the reactive `useEffect` that keeps only selected
keys whose key is still among the collection's keys). -/
def pruneSelected (sel : List String) (todos : List Todo) : List String :=
  sel.filter (fun k => todos.any (fun t => toKey t.id == k))

/-! ### Query/View projection. -/

inductive StatusFilter where
  | all | active | completed
deriving DecidableEq, Repr

inductive SortMode where
  | activeFirst | completedFirst | az | za
deriving DecidableEq, Repr

/-- Status filter stage of `filteredAndSorted`. -/
def statusKeep : StatusFilter → Todo → Bool
  | .active, t => !t.completed
  | .completed, t => t.completed
  | .all, _ => true

/-- `needle` starts the list `hay` (char-wise). -/
def listStartsWith : List Char → List Char → Bool
  | [], _ => true
  | _ :: _, [] => false
  | a :: as, b :: bs => a == b && listStartsWith as bs

/-- `hay.includes(needle)` on char lists. -/
def listIncludes (needle : List Char) : List Char → Bool
  | [] => listStartsWith needle []
  | c :: rest => listStartsWith needle (c :: rest) || listIncludes needle rest

/-- JS `trim()`: strip whitespace from both ends (on the char list of the
string, so that concrete instances compute). -/
def trimChars (l : List Char) : List Char :=
  ((l.dropWhile Char.isWhitespace).reverse.dropWhile Char.isWhitespace).reverse

/-- JS `toLowerCase()`, modelled per-char (faithful on the ASCII titles the
app manipulates). -/
def lowerChars (l : List Char) : List Char := l.map Char.toLower

/-- `Number(completed)` of the sort comparators. -/
def numCompleted (t : Todo) : Int := if t.completed then 1 else 0

/-- The four `copy.sort(...)` comparators of `filteredAndSorted`, as stable
sorts.  `az`/`za` use `localeCompare(_, "tr")` in the source, modelled here as
code-point order on the title. -/
def sortTodos : SortMode → List Todo → List Todo
  | .az, l => jsSortBy (fun a b => decide (a.title < b.title)) l
  | .za, l => jsSortBy (fun a b => decide (b.title < a.title)) l
  | .completedFirst, l => jsSortBy (fun a b => decide (numCompleted b < numCompleted a)) l
  | .activeFirst, l => jsSortBy (fun a b => decide (numCompleted a < numCompleted b)) l

/-- Source `filteredAndSorted`: status filter, then case-insensitive substring
filter on the trimmed (debounced) search text, then the selected sort. -/
def filteredAndSorted (search : String) (status : StatusFilter) (mode : SortMode)
    (todos : List Todo) : List Todo :=
  let q := lowerChars (trimChars search.toList)
  let base :=
    (todos.filter (statusKeep status)).filter
      (fun t => if q.isEmpty then true else listIncludes q (lowerChars t.title.toList))
  sortTodos mode base

/-- Source `totalPages = Math.max(1, Math.ceil(filteredAndSorted.length / pageSize))`.
`pageSize` is one of the allowed sizes 10/20/50, hence positive. -/
def totalPages (len pageSize : Nat) : Nat := max 1 ((len + pageSize - 1) / pageSize)

/-- Source `currentPage = clampInt(page, 1, totalPages)`. -/
def currentPage (page : Int) (len pageSize : Nat) : Int :=
  clampInt page 1 (totalPages len pageSize)

/-! ### Optimistic mutation controller. -/

inductive Notif where
  | success | failure | info
deriving DecidableEq, Repr

/-- `onError` rollback: `if (ctx?.prev) queryClient.setQueryData(["todos"], ctx.prev)`.
`prev` is truthy exactly when it is a (possibly empty) array. -/
def rollbackTo (prev cache : Option (List Todo)) : Option (List Todo) :=
  match prev with
  | some l => some l
  | none => cache

/-- `updateMutation.onMutate` optimistic write: replace the matching item with
`nextTodo` (strict `===` identifier comparison). -/
def applyOptimisticUpdate (nextTodo : Todo) : Option (List Todo) → Option (List Todo)
  | none => none
  | some old => some (old.map (fun t => if t.id == nextTodo.id then nextTodo else t))

/-- `toggleMutation.onMutate` of the earlier `Todos.tsx` variant: patch only the
completed flag of the matching item. -/
def applyOptimisticToggle (id : Ident) (completed : Bool) :
    Option (List Todo) → Option (List Todo)
  | none => none
  | some old =>
    some (old.map (fun t => if t.id == id then { t with completed := completed } else t))

structure MutRun where
  cache : Option (List Todo)
  notifs : List Notif
deriving DecidableEq, Repr

/-- One failing run of `updateMutation` (toggle-complete or edit-title both call
it): `onMutate` snapshots and writes optimistically, the remote call fails,
`onError` rolls back and emits one failure toast. -/
def runUpdateFailure (c0 : Option (List Todo)) (nextTodo : Todo) : MutRun :=
  let prev := c0
  let c1 := applyOptimisticUpdate nextTodo c0
  { cache := rollbackTo prev c1, notifs := [Notif.failure] }

/-- One failing run of the `Todos.tsx` `toggleMutation` (same shape, patch write). -/
def runToggleFailure (c0 : Option (List Todo)) (id : Ident) (completed : Bool) : MutRun :=
  let prev := c0
  let c1 := applyOptimisticToggle id completed c0
  { cache := rollbackTo prev c1, notifs := [Notif.failure] }

/-- Interleaving `A.onMutate; B.onMutate; A.onError`: B's optimistic change is
applied after A's snapshot, then A fails and restores its snapshot. -/
def runInterleavedRollback (c0 : Option (List Todo)) (a b : Todo) : Option (List Todo) :=
  let prevA := c0
  let c1 := applyOptimisticUpdate a c0
  let c2 := applyOptimisticUpdate b c1
  rollbackTo prevA c2

/-- Interleaving `B.onMutate; A.onMutate; A.onError`: B's optimistic change is
applied before A's snapshot is taken. -/
def runSequentialRollback (c0 : Option (List Todo)) (a b : Todo) : Option (List Todo) :=
  let c1 := applyOptimisticUpdate b c0
  let prevA := c1
  let c2 := applyOptimisticUpdate a c1
  rollbackTo prevA c2

/-! ### Deferred delete with undo (pending operation tracker). -/

/-- Event-loop state threaded through delete-with-undo runs.  `pending` is the
liveness of this request's `pendingDeleteTimers` entry, `issued` the remote
DELETE calls made so far, `stale` whether `invalidateQueries` was called. -/
structure SysState where
  cache : Option (List Todo)
  pending : Bool
  issued : List Ident
  notifs : List Notif
  stale : Bool
deriving DecidableEq, Repr

def initState (c : Option (List Todo)) : SysState :=
  { cache := c, pending := false, issued := [], notifs := [], stale := false }

/-- Source `doDeferredDelete`: drop temp-id items, issue a DELETE per remaining
item (`Promise.allSettled`), and on any rejection show one failure toast and
invalidate the cache.  No cache write, no retry, no restore. -/
def doDeferredDelete (items : List Todo) (outcome : Ident → Bool) (s : SysState) : SysState :=
  let real := items.filter (fun t => !isTempId t.id)
  if real.isEmpty then s
  else
    let failed := (real.filter (fun t => !outcome t.id)).length
    let s1 := { s with issued := s.issued ++ real.map (fun t => t.id) }
    if 0 < failed then { s1 with notifs := s1.notifs ++ [Notif.failure], stale := true } else s1

/-- `deleteWithUndo` arm phase: record the item's index in the current cache,
remove it optimistically, start the 5s timer.  Returns the index captured by
the undo closure. -/
def armSingle (todo : Todo) (s : SysState) : SysState × Int :=
  let old := s.cache.getD []
  let idx := findIndexKey (toKey todo.id) old
  ({ s with cache := removeFromCache [todo.id] s.cache, pending := true }, idx)

/-- `bulkDeleteWithUndo` arm phase: record all indices, remove all items, start
the timer under the synthetic batch key. -/
def armBulk (items : List Todo) (s : SysState) : SysState × List Int :=
  let old := s.cache.getD []
  let indices := items.map (fun it => findIndexKey (toKey it.id) old)
  ({ s with cache := removeFromCache (items.map (fun t => t.id)) s.cache, pending := true },
   indices)

/-- Timer expiry: the callback only runs while its timer entry is alive; it
deletes the entry and performs the deferred remote delete. -/
def fireStep (items : List Todo) (outcome : Ident → Bool) (s : SysState) : SysState :=
  if s.pending then doDeferredDelete items outcome { s with pending := false } else s

/-- The undo closure of `deleteWithUndo`: cancel the timer if its entry is still
alive, then (unconditionally in the source) restore the item at its recorded
index and toast success. -/
def undoSingle (todo : Todo) (idx : Int) (s : SysState) : SysState :=
  let s1 := if s.pending then { s with pending := false } else s
  { s1 with
    cache := restoreIntoCache [todo] (some [idx]) s1.cache
    notifs := s1.notifs ++ [Notif.success] }

/-- The undo closure of `bulkDeleteWithUndo`. -/
def undoBulk (items : List Todo) (indices : List Int) (s : SysState) : SysState :=
  let s1 := if s.pending then { s with pending := false } else s
  { s1 with
    cache := restoreIntoCache items (some indices) s1.cache
    notifs := s1.notifs ++ [Notif.success] }

/-! ### Bulk complete. -/

structure BulkRun where
  cache : Option (List Todo)
  notifs : List Notif
  stale : Bool
  selectionCleared : Bool
deriving DecidableEq, Repr

/-- The optimistic write of `bulkComplete`: mark every selected incomplete item
completed (key-set comparison via `toKey`). -/
def applyBulkComplete (items : List Todo) : Option (List Todo) → Option (List Todo)
  | none => none
  | some old =>
    some (old.map (fun t =>
      if keyMem (toKey t.id) (items.map (fun it => toKey it.id))
      then { t with completed := true } else t))

/-- One run of `bulkComplete`: snapshot, optimistic write, `Promise.all` of the
updates; on full success toast success, invalidate and clear the selection; on
any failure toast failure once and restore the snapshot (no invalidation). -/
def bulkCompleteRun (c0 : Option (List Todo)) (selectedTodos : List Todo)
    (outcome : Ident → Bool) : BulkRun :=
  let items := selectedTodos.filter (fun t => !t.completed)
  if items.isEmpty then
    { cache := c0, notifs := [Notif.info], stale := false, selectionCleared := false }
  else
    let prev := c0
    let c1 := applyBulkComplete items c0
    if items.any (fun t => !outcome t.id) then
      { cache := rollbackTo prev c1, notifs := [Notif.failure], stale := false,
        selectionCleared := false }
    else
      { cache := c1, notifs := [Notif.success], stale := true, selectionCleared := true }

/-- Keys of a todo list. -/
def keysOf (l : List Todo) : List String := l.map (fun t => toKey t.id)

/-- Collection invariant of the spec: identifiers (as keys) are unique. -/
def KeyNodup (l : List Todo) : Prop := (keysOf l).Nodup

instance : DecidablePred KeyNodup := fun l =>
  inferInstanceAs (Decidable (keysOf l).Nodup)

/-! ### Auxiliary notions for the undo-restore round-trip proof (C3). -/

/-- Keys of the recorded (item, original index) pairs. -/
def pairKeys (ps : List (Todo × Int)) : List String := ps.map (fun p => toKey p.1.id)

/-- Shift every recorded index up by one (passing one retained element). -/
def shiftPairs (ps : List (Todo × Int)) : List (Todo × Int) :=
  ps.map (fun p => (p.1, p.2 + 1))

/-- Shift every recorded index down by one. -/
def unshiftPairs (ps : List (Todo × Int)) : List (Todo × Int) :=
  ps.map (fun p => (p.1, p.2 - 1))

/-- `Deleted old ps base`: scanning `old` from the front, the pairs `ps` —
listed in ascending recorded-index order with indices absolute in `old` — are
exactly the removed elements at their original positions, and `base` is the
remainder. -/
inductive Deleted : List Todo → List (Todo × Int) → List Todo → Prop where
  | nil : Deleted [] [] []
  | keep {l ps l2} (x : Todo) : Deleted l ps l2 → Deleted (x :: l) (shiftPairs ps) (x :: l2)
  | del {l ps l2} (x : Todo) : Deleted l ps l2 → Deleted (x :: l) ((x, 0) :: shiftPairs ps) l2

end TodoApp

namespace TodoApp

/-! ### Basic lemmas. -/

theorem keyMem_iff {k : String} {ks : List String} : keyMem k ks = true ↔ k ∈ ks := by
  simp only [keyMem, List.any_eq_true, beq_iff_eq]
  constructor
  · rintro ⟨x, hx, rfl⟩; exact hx
  · intro h; exact ⟨k, h, rfl⟩

theorem keyMem_false_iff {k : String} {ks : List String} :
    keyMem k ks = false ↔ k ∉ ks := by
  rw [← keyMem_iff]
  cases h : keyMem k ks <;> simp [h]

/-- On a singleton pair list the restore loop either skips (key present) or
splices the one item in. -/
theorem jsSortBy_singleton (lt : α → α → Bool) (x : α) : jsSortBy lt [x] = [x] := rfl

/-- Skipping restore of an item whose key is already in the cache leaves the
cache unchanged (the idempotent-insert guard of `restoreIntoCache`). -/
theorem restore_single_skip (it : Todo) (i : Int) (old : List Todo)
    (h : toKey it.id ∈ keysOf old) :
    restoreIntoCache [it] (some [i]) (some old) = some old := by
  have hk : keyMem (toKey it.id) (old.map (fun t => toKey t.id)) = true :=
    keyMem_iff.mpr h
  simp [restoreIntoCache, jsSortBy_singleton, spliceLoop, hk]

/-! ### C1. -/

/-- C1: for every optimistic update (toggle-complete or edit-title) whose remote
call fails, the rollback restores the Collection byte-for-byte to the snapshot
taken immediately before the optimistic write, and exactly one failure
notification is emitted.  Covers both the evolved page's `updateMutation` and
the earlier `Todos.tsx` `toggleMutation`. -/
theorem C1_rollback_restores_snapshot :
    ∀ (c0 : Option (List Todo)) (nextTodo : Todo) (id : Ident) (b : Bool),
      (runUpdateFailure c0 nextTodo).cache = c0 ∧
      (runUpdateFailure c0 nextTodo).notifs = [Notif.failure] ∧
      (runToggleFailure c0 id b).cache = c0 ∧
      (runToggleFailure c0 id b).notifs = [Notif.failure] := by
  intro c0 nt id b
  cases c0 <;>
    simp [runUpdateFailure, runToggleFailure, rollbackTo,
      applyOptimisticUpdate, applyOptimisticToggle]

/-! ### C2. -/

/-- C2 counterexample: items 1 and 2 both start incomplete; update A (item 1)
takes its snapshot and applies, update B (item 2) applies its change, then A
fails.  A's rollback restores its whole-collection snapshot, so B's change —
already applied — is no longer present afterwards, contrary to the claim. -/
theorem C2_counterexample_interleaved :
    runInterleavedRollback
        (some [⟨.num 1, "Buy milk", false⟩, ⟨.num 2, "Clean", false⟩])
        ⟨.num 1, "Buy milk", true⟩ ⟨.num 2, "Clean", true⟩
      = some [⟨.num 1, "Buy milk", false⟩, ⟨.num 2, "Clean", false⟩] ∧
    (⟨.num 2, "Clean", true⟩ : Todo)
      ∉ [(⟨.num 1, "Buy milk", false⟩ : Todo), ⟨.num 2, "Clean", false⟩] := by
  decide

/-- C2 amended: a failed update's rollback restores its own whole-collection
pre-mutation snapshot.  Hence a concurrent update's change survives exactly
when it was applied before the failed update's snapshot was taken
(`runSequentialRollback` keeps B's optimistic write), while a concurrent change
applied after the snapshot is reverted together with the failed one
(`runInterleavedRollback` returns the original collection). -/
theorem C2_rollback_restores_whole_snapshot :
    ∀ (c0 : Option (List Todo)) (a b : Todo),
      runSequentialRollback c0 a b = applyOptimisticUpdate b c0 ∧
      runInterleavedRollback c0 a b = c0 := by
  intro c0 a b
  cases c0 <;>
    simp [runSequentialRollback, runInterleavedRollback, rollbackTo, applyOptimisticUpdate]

/-! ### C5. -/

/-- C5 counterexample: two selected incomplete items, the remote update succeeds
for item 1 and fails for item 2.  The run restores the cache to the full
pre-mutation snapshot — so the successful item's change does NOT stand (its
completed version is not in the cache) — and does not trigger a refresh
(`stale = false`), contrary to the claim. -/
theorem C5_counterexample_partial_failure :
    bulkCompleteRun (some [⟨.num 1, "A", false⟩, ⟨.num 2, "B", false⟩])
        [⟨.num 1, "A", false⟩, ⟨.num 2, "B", false⟩] (fun i => i == Ident.num 1)
      = { cache := some [⟨.num 1, "A", false⟩, ⟨.num 2, "B", false⟩],
          notifs := [Notif.failure], stale := false, selectionCleared := false } ∧
    (⟨.num 1, "A", true⟩ : Todo)
      ∉ [(⟨.num 1, "A", false⟩ : Todo), ⟨.num 2, "B", false⟩] := by
  decide

/-- C5 amended: when any item of a bulk-complete fails, the whole optimistic
batch is rolled back to the pre-mutation snapshot (successful items' local
changes do not stand), exactly one aggregate failure notification is emitted,
no refresh is triggered on the failure path, and the selection is not cleared;
refresh and selection-clear happen only on full success. -/
theorem C5_bulk_failure_rolls_back :
    ∀ (c0 : Option (List Todo)) (sel : List Todo) (outcome : Ident → Bool),
      ((sel.filter (fun t => !t.completed)).isEmpty = false) →
      ((sel.filter (fun t => !t.completed)).any (fun t => !outcome t.id) = true) →
      bulkCompleteRun c0 sel outcome
        = { cache := c0, notifs := [Notif.failure], stale := false,
            selectionCleared := false } := by
  intro c0 sel outcome h1 h2
  cases c0 <;> simp [bulkCompleteRun, h1, h2, rollbackTo, applyBulkComplete]

/-- Witness for the amended C5 at a concrete partial failure. -/
theorem C5_bulk_failure_rolls_back_witness :
    bulkCompleteRun (some [⟨.num 1, "A", false⟩, ⟨.num 2, "B", false⟩])
        [⟨.num 1, "A", false⟩, ⟨.num 2, "B", false⟩] (fun i => i == Ident.num 2)
      = { cache := some [⟨.num 1, "A", false⟩, ⟨.num 2, "B", false⟩],
          notifs := [Notif.failure], stale := false, selectionCleared := false } :=
  C5_bulk_failure_rolls_back _ _ _ (by decide) (by decide)

/-! ### C6. -/

/-- C6: when a pending delete's timer fires without undo, a remote delete is
issued exactly for the non-temp-id items (temp-id items are dropped with no
remote call, and each remote item is issued exactly once — no retry); if any
remote delete fails, exactly one failure notification is shown and a refresh is
triggered, but the cache is not touched (the local removal stands). -/
theorem C6_deferred_delete_behaviour :
    ∀ (items : List Todo) (outcome : Ident → Bool) (s : SysState),
      (doDeferredDelete items outcome s).cache = s.cache ∧
      (doDeferredDelete items outcome s).pending = s.pending ∧
      (doDeferredDelete items outcome s).issued
        = s.issued ++ (items.filter (fun t => !isTempId t.id)).map (fun t => t.id) ∧
      (doDeferredDelete items outcome s).notifs
        = s.notifs ++ (if 0 < ((items.filter (fun t => !isTempId t.id)).filter
              (fun t => !outcome t.id)).length then [Notif.failure] else []) ∧
      (doDeferredDelete items outcome s).stale
        = (s.stale || decide (0 < ((items.filter (fun t => !isTempId t.id)).filter
              (fun t => !outcome t.id)).length)) ∧
      fireStep items outcome { s with pending := true }
        = doDeferredDelete items outcome { s with pending := false } := by
  intro items outcome s
  have h6 : fireStep items outcome { s with pending := true }
      = doDeferredDelete items outcome { s with pending := false } := rfl
  refine ⟨?_, ?_, ?_, ?_, ?_, h6⟩ <;>
    · unfold doDeferredDelete
      cases hE : (items.filter (fun t => !isTempId t.id)).isEmpty
      · simp only [hE, Bool.false_eq_true, if_false]
        split
        all_goals simp [*, -List.filter_filter]
      · have h0 : items.filter (fun t => !isTempId t.id) = [] := List.isEmpty_iff.mp hE
        simp [hE, h0]

/-! ### C7. -/

/-- C7: `totalPages` is at least 1 even with zero matching items, and the
effective page is clamped into `[1, totalPages]`; with 3 matching items and
page size 10, `totalPages = 1` and a requested page of 5 clamps to 1. -/
theorem C7_page_clamp :
    ∀ (len ps : Nat) (page : Int),
      1 ≤ totalPages len ps ∧
      1 ≤ currentPage page len ps ∧
      currentPage page len ps ≤ (totalPages len ps : Int) ∧
      totalPages 3 10 = 1 ∧ currentPage 5 3 10 = 1 := by
  intro len ps page
  refine ⟨le_max_left 1 _, ?_, min_le_left _ _, by decide, by decide⟩
  apply le_min
  · exact_mod_cast le_max_left 1 ((len + ps - 1) / ps)
  · exact le_max_left 1 page

/-! ### C9. -/

/-- C9: inserting an item whose identifier is already present leaves the
Collection unchanged for that item — the undo-restore insert skips an already
present key in both its indexed branch (indices clamped) and its prepend
branch, and the create path's prepend is a no-op when the returned identifier
already exists. -/
theorem C9_duplicate_insert_guard :
    ∀ (old : List Todo) (it : Todo) (i : Int) (nt : Todo),
      toKey it.id ∈ keysOf old →
      (∃ t ∈ old, t.id = nt.id) →
      restoreIntoCache [it] (some [i]) (some old) = some old ∧
      restoreIntoCache [it] none (some old) = some old ∧
      createInsert nt (some old) = some old := by
  intro old it i nt h1 h2
  have hk : keyMem (toKey it.id) (old.map (fun t => toKey t.id)) = true :=
    keyMem_iff.mpr h1
  refine ⟨restore_single_skip it i old h1, ?_, ?_⟩
  · simp [restoreIntoCache, hk]
  · obtain ⟨t, ht, hid⟩ := h2
    have : old.any (fun t => t.id == nt.id) = true :=
      List.any_eq_true.mpr ⟨t, ht, beq_iff_eq.mpr hid⟩
    simp [createInsert, this]

/-- Witness for C9 at a concrete duplicate. -/
theorem C9_duplicate_insert_guard_witness :
    restoreIntoCache [⟨.num 1, "x", false⟩] (some [0]) (some [⟨.num 1, "x", false⟩])
      = some [⟨.num 1, "x", false⟩] ∧
    restoreIntoCache [⟨.num 1, "x", false⟩] none (some [⟨.num 1, "x", false⟩])
      = some [⟨.num 1, "x", false⟩] ∧
    createInsert ⟨.num 1, "x", false⟩ (some [⟨.num 1, "x", false⟩])
      = some [⟨.num 1, "x", false⟩] :=
  C9_duplicate_insert_guard [⟨.num 1, "x", false⟩] ⟨.num 1, "x", false⟩ 0
    ⟨.num 1, "x", false⟩ (by decide) (by decide)

/-! ### C10. -/

/-- C10: cache removal, undo-restore deduplication and selection bookkeeping
compare identifiers via `String(id)`: a numeric id `n` and the string `"n"`
denote the same item, so removal by the string form removes the numeric-id item
(and keeps every other-key item), a restore of the string form is skipped as a
duplicate of the present numeric item, and the string key survives selection
pruning while the numeric-id item is in the collection. -/
theorem C10_string_key_identity :
    ∀ (n : Int) (old : List Todo) (it : Todo) (i : Int) (title : String) (c : Bool),
      it ∈ old →
      it.id = Ident.num n →
      toKey (Ident.num n) = toKey (Ident.str (toString n)) ∧
      (∃ l, removeFromCache [Ident.str (toString n)] (some old) = some l ∧
        it ∉ l ∧ ∀ t ∈ old, toKey t.id ≠ toString n → t ∈ l) ∧
      restoreIntoCache [⟨Ident.str (toString n), title, c⟩] (some [i]) (some old)
        = some old ∧
      pruneSelected [toString n] old = [toString n] := by
  intro n old it i title c hmem hid
  have hkey : toKey it.id = toString n := by rw [hid]; rfl
  refine ⟨rfl, ?_, ?_, ?_⟩
  · refine ⟨old.filter (fun t => !keyMem (toKey t.id) ([Ident.str (toString n)].map toKey)),
      rfl, ?_, ?_⟩
    · intro hin
      have h2 := (List.mem_filter.mp hin).2
      simp only [List.map_cons, List.map_nil, hkey] at h2
      have hred : toKey (Ident.str (toString n)) = toString n := rfl
      rw [hred] at h2
      simp [keyMem] at h2
    · intro t ht hne
      refine List.mem_filter.mpr ⟨ht, ?_⟩
      simp [keyMem, toKey]
      exact fun h => hne h.symm
  · apply restore_single_skip
    show toKey (Ident.str (toString n)) ∈ keysOf old
    have : toKey (Ident.str (toString n)) = toKey it.id := by rw [hkey]; rfl
    rw [this]
    exact List.mem_map.mpr ⟨it, hmem, rfl⟩
  · have : old.any (fun t => toKey t.id == toString n) = true :=
      List.any_eq_true.mpr ⟨it, hmem, beq_iff_eq.mpr hkey⟩
    simp [pruneSelected, this]

/-- Witness for C10 at the concrete identifiers `7` and `"7"`. -/
theorem C10_string_key_identity_witness :
    toKey (Ident.num 7) = toKey (Ident.str "7") ∧
    (∃ l, removeFromCache [Ident.str "7"] (some [⟨.num 7, "a", false⟩]) = some l ∧
      (⟨.num 7, "a", false⟩ : Todo) ∉ l ∧
      ∀ t ∈ [(⟨.num 7, "a", false⟩ : Todo)], toKey t.id ≠ "7" → t ∈ l) ∧
    restoreIntoCache [⟨Ident.str "7", "b", true⟩] (some [0]) (some [⟨.num 7, "a", false⟩])
      = some [⟨.num 7, "a", false⟩] ∧
    pruneSelected ["7"] [⟨.num 7, "a", false⟩] = ["7"] :=
  C10_string_key_identity 7 [⟨.num 7, "a", false⟩] ⟨.num 7, "a", false⟩ 0 "b" true
    (by decide) (by decide)

end TodoApp

namespace TodoApp

/-! ### Stable-sort lemmas for the projection (C8). -/

theorem stableInsert_all_false (lt : α → α → Bool) (x : α) (l : List α)
    (h : ∀ y ∈ l, lt x y = false) : stableInsert lt x l = l ++ [x] := by
  induction l with
  | nil => rfl
  | cons a as ih =>
    have ha := h a (List.mem_cons_self a as)
    simp only [stableInsert, ha, Bool.false_eq_true, if_false, List.cons_append]
    exact congrArg (a :: ·) (ih fun y hy => h y (List.mem_cons_of_mem a hy))

theorem stableInsert_append (lt : α → α → Bool) (x : α) (A B : List α)
    (hA : ∀ y ∈ A, lt x y = false) (hB : ∀ y ∈ B, lt x y = true) :
    stableInsert lt x (A ++ B) = A ++ x :: B := by
  induction A with
  | nil =>
    cases B with
    | nil => rfl
    | cons b bs =>
      have hb := hB b (List.mem_cons_self b bs)
      simp [stableInsert, hb]
  | cons a as ih =>
    have ha := hA a (List.mem_cons_self a as)
    simp only [List.cons_append, stableInsert, ha, Bool.false_eq_true, if_false]
    exact congrArg (a :: ·) (ih fun y hy => hA y (List.mem_cons_of_mem a hy))

theorem jsSortBy_snoc (lt : α → α → Bool) (l : List α) (x : α) :
    jsSortBy lt (l ++ [x]) = stableInsert lt x (jsSortBy lt l) := by
  simp [jsSortBy, List.foldl_append]

/-- A stable sort whose comparator only separates a two-valued key is the
stable partition: first the elements outside `p`, then those in `p`, each group
in original order. -/
theorem jsSortBy_two_group (p : α → Bool) (l : List α) :
    jsSortBy (fun a b => !p a && p b) l
      = l.filter (fun y => !p y) ++ l.filter p := by
  induction l using List.reverseRecOn with
  | nil => rfl
  | append_singleton l x ih =>
    rw [jsSortBy_snoc, ih]
    cases hx : p x
    · rw [stableInsert_append _ _ _ _ ?hA ?hB]
      · simp [List.filter_append, hx]
      case hA =>
        intro y hy
        have hpy := (List.mem_filter.mp hy).2
        simp only [Bool.not_eq_true'] at hpy
        simp [hx, hpy]
      case hB =>
        intro y hy
        simp only [List.mem_filter] at hy
        simp [hx, hy.2]
    · rw [stableInsert_all_false _ _ _ ?hall]
      · simp [List.filter_append, hx]
      case hall => intro y hy; simp [hx]

theorem activeFirst_comparator_eq :
    (fun a b : Todo => decide (numCompleted a < numCompleted b))
      = fun a b : Todo => !a.completed && b.completed := by
  funext a b
  cases ha : a.completed <;> cases hb : b.completed <;> simp [numCompleted, ha, hb]

theorem completedFirst_comparator_eq :
    (fun a b : Todo => decide (numCompleted b < numCompleted a))
      = fun a b : Todo => !(!a.completed) && !b.completed := by
  funext a b
  cases ha : a.completed <;> cases hb : b.completed <;> simp [numCompleted, ha, hb]

/-- C8: the projection filters by status, then by search text, then sorts;
`activeFirst`/`completedFirst` are stable sorts keyed solely on the completed
flag — proved as the stable-partition characterisation: the incomplete items in
original order followed by the completed ones (resp. the reverse) — and on the
spec's three-item example with `filter = active`, empty search and
`activeFirst`, the visible items are ids 1 and 3 in their original relative
order. -/
theorem C8_projection_stable_sort :
    (∀ l : List Todo, sortTodos .activeFirst l
        = l.filter (fun t => !t.completed) ++ l.filter (fun t => t.completed)) ∧
    (∀ l : List Todo, sortTodos .completedFirst l
        = l.filter (fun t => t.completed) ++ l.filter (fun t => !t.completed)) ∧
    filteredAndSorted "" .active .activeFirst
        [⟨.num 1, "Buy milk", false⟩, ⟨.num 2, "Clean", true⟩, ⟨.num 3, "Read", false⟩]
      = [⟨.num 1, "Buy milk", false⟩, ⟨.num 3, "Read", false⟩] := by
  refine ⟨?_, ?_, ?_⟩
  · intro l
    show jsSortBy (fun a b => decide (numCompleted a < numCompleted b)) l = _
    rw [activeFirst_comparator_eq, jsSortBy_two_group (fun t : Todo => t.completed) l]
  · intro l
    show jsSortBy (fun a b => decide (numCompleted b < numCompleted a)) l = _
    rw [completedFirst_comparator_eq, jsSortBy_two_group (fun t : Todo => !t.completed) l]
    simp
  · decide

theorem mem_spliceIn_self (x : α) (n : Nat) (l : List α) : x ∈ spliceIn n x l := by
  induction l generalizing n with
  | nil => simp [spliceIn]
  | cons y ys ih =>
    cases n with
    | zero => simp [spliceIn]
    | succ m => simp only [spliceIn, List.mem_cons]; exact Or.inr (ih m)

/-- After a single-item indexed restore, the item's key is in the cache. -/
theorem restore_single_mem (it : Todo) (i : Int) (c : Option (List Todo)) :
    ∃ L, restoreIntoCache [it] (some [i]) c = some L ∧ toKey it.id ∈ keysOf L := by
  unfold restoreIntoCache
  cases hk : keyMem (toKey it.id) ((c.getD []).map (fun t => toKey t.id))
  · refine ⟨spliceIn (clampInt i 0 (c.getD []).length).toNat it (c.getD []), ?_, ?_⟩
    · simp [jsSortBy_singleton, spliceLoop, hk]
    · exact List.mem_map.mpr ⟨it, mem_spliceIn_self it _ _, rfl⟩
  · refine ⟨c.getD [], ?_, keyMem_iff.mp hk⟩
    simp [jsSortBy_singleton, spliceLoop, hk]

/-- The cache effect of the undo closure does not depend on the timer-entry
branch: it is always the indexed restore of the captured item. -/
theorem undoSingle_cache (todo : Todo) (idx : Int) (s : SysState) :
    (undoSingle todo idx s).cache = restoreIntoCache [todo] (some [idx]) s.cache := by
  unfold undoSingle
  by_cases h : s.pending = true <;> simp [h]

/-- C4 counterexample: arm a delete of the only item, let the timer fire (the
remote delete is issued), then invoke undo.  The undo after the fire still
reinserts the item into the cache — the cache IS modified again — so undo after
expiry is not a no-op as the claim states. -/
theorem C4_counterexample_undo_after_fire :
    (undoSingle ⟨.num 1, "a", false⟩
        (armSingle ⟨.num 1, "a", false⟩ (initState (some [⟨.num 1, "a", false⟩]))).2
        (fireStep [⟨.num 1, "a", false⟩] (fun _ => true)
          (armSingle ⟨.num 1, "a", false⟩ (initState (some [⟨.num 1, "a", false⟩]))).1)).cache
      ≠ (fireStep [⟨.num 1, "a", false⟩] (fun _ => true)
          (armSingle ⟨.num 1, "a", false⟩ (initState (some [⟨.num 1, "a", false⟩]))).1).cache ∧
    (fireStep [⟨.num 1, "a", false⟩] (fun _ => true)
        (armSingle ⟨.num 1, "a", false⟩ (initState (some [⟨.num 1, "a", false⟩]))).1).issued
      = [Ident.num 1] := by
  decide

/-- C4 amended: invoking undo twice is a cache no-op (the second restore is
skipped by the duplicate-key guard), and an undo performed before expiry
cancels the timer entry, so a later timer fire is a complete no-op and the
scheduled remote delete is never issued; undo after the timer has fired,
however, reinserts the item (see the counterexample) — only the timer-entry
handling is idempotent. -/
theorem C4_cancellation_behaviour (c0 : Option (List Todo)) (todo : Todo)
    (outcome : Ident → Bool) :
    (undoSingle todo (armSingle todo (initState c0)).2
        (undoSingle todo (armSingle todo (initState c0)).2
          (armSingle todo (initState c0)).1)).cache
      = (undoSingle todo (armSingle todo (initState c0)).2
          (armSingle todo (initState c0)).1).cache ∧
    fireStep [todo] outcome
        (undoSingle todo (armSingle todo (initState c0)).2
          (armSingle todo (initState c0)).1)
      = undoSingle todo (armSingle todo (initState c0)).2
          (armSingle todo (initState c0)).1 ∧
    (undoSingle todo (armSingle todo (initState c0)).2
        (armSingle todo (initState c0)).1).issued = [] := by
  refine ⟨?_, rfl, rfl⟩
  obtain ⟨L, hL, hmem⟩ :=
    restore_single_mem todo (armSingle todo (initState c0)).2
      (armSingle todo (initState c0)).1.cache
  rw [undoSingle_cache, undoSingle_cache, hL]
  exact restore_single_skip todo _ L hmem

/-! ### Sort-permutation and sortedness lemmas (towards C3). -/

theorem spliceIn_zero (x : α) (l : List α) : spliceIn 0 x l = x :: l := by
  cases l <;> rfl

theorem stableInsert_perm (lt : α → α → Bool) (x : α) (l : List α) :
    (stableInsert lt x l).Perm (x :: l) := by
  induction l with
  | nil => exact List.Perm.refl [x]
  | cons y ys ih =>
    unfold stableInsert
    by_cases h : lt x y = true
    · rw [if_pos h]
    · rw [if_neg h]
      exact (ih.cons y).trans (List.Perm.swap x y ys)

theorem jsSortBy_foldl_perm (lt : α → α → Bool) :
    ∀ (l acc : List α),
      (List.foldl (fun a x => stableInsert lt x a) acc l).Perm (acc ++ l) := by
  intro l
  induction l with
  | nil => intro acc; simp
  | cons x xs ih =>
    intro acc
    have h1 := ih (stableInsert lt x acc)
    have h2 : (stableInsert lt x acc ++ xs).Perm ((x :: acc) ++ xs) :=
      (stableInsert_perm lt x acc).append_right xs
    have h3 : ((x :: acc) ++ xs).Perm (acc ++ x :: xs) := List.perm_middle.symm
    exact (h1.trans h2).trans h3

theorem jsSortBy_perm (lt : α → α → Bool) (l : List α) : (jsSortBy lt l).Perm l := by
  have h := jsSortBy_foldl_perm lt l []
  simpa [jsSortBy] using h

theorem stableInsert_pairwise_le (keyf : α → Int) (x : α) (l : List α)
    (h : l.Pairwise (fun a b => keyf a ≤ keyf b)) :
    (stableInsert (fun a b => decide (keyf a < keyf b)) x l).Pairwise
      (fun a b => keyf a ≤ keyf b) := by
  induction l with
  | nil => simp [stableInsert]
  | cons y ys ih =>
    rw [List.pairwise_cons] at h
    obtain ⟨hy, hys⟩ := h
    unfold stableInsert
    by_cases hlt : keyf x < keyf y
    · rw [if_pos (by simpa using hlt)]
      rw [List.pairwise_cons]
      refine ⟨?_, List.pairwise_cons.mpr ⟨hy, hys⟩⟩
      intro b hb
      rcases List.mem_cons.mp hb with rfl | hb2
      · exact le_of_lt hlt
      · exact le_trans (le_of_lt hlt) (hy b hb2)
    · rw [if_neg (by simpa using hlt)]
      rw [List.pairwise_cons]
      refine ⟨?_, ih hys⟩
      intro b hb
      have hb2 := (stableInsert_perm _ x ys).mem_iff.mp hb
      rcases List.mem_cons.mp hb2 with rfl | hb3
      · exact le_of_not_lt hlt
      · exact hy b hb3

theorem jsSortBy_pairwise_le (keyf : α → Int) :
    ∀ (l acc : List α),
      acc.Pairwise (fun a b => keyf a ≤ keyf b) →
      (List.foldl (fun a x => stableInsert (fun a b => decide (keyf a < keyf b)) x a)
          acc l).Pairwise (fun a b => keyf a ≤ keyf b) := by
  intro l
  induction l with
  | nil => intro acc h; exact h
  | cons x xs ih => intro acc h; exact ih _ (stableInsert_pairwise_le keyf x acc h)

theorem jsSortBy_sorted (keyf : α → Int) (l : List α) :
    (jsSortBy (fun a b => decide (keyf a < keyf b)) l).Pairwise
      (fun a b => keyf a ≤ keyf b) :=
  jsSortBy_pairwise_le keyf l [] List.Pairwise.nil

/-! ### Restore-loop structure lemmas (towards C3). -/

theorem pairKeys_shiftPairs (ps : List (Todo × Int)) :
    pairKeys (shiftPairs ps) = pairKeys ps := by
  simp [pairKeys, shiftPairs, List.map_map]

theorem shift_unshift (ps : List (Todo × Int)) (h : ∀ p ∈ ps, 1 ≤ p.2) :
    shiftPairs (unshiftPairs ps) = ps := by
  induction ps with
  | nil => rfl
  | cons p rest ih =>
    have hrest := ih (fun q hq => h q (List.mem_cons_of_mem p hq))
    show (p.1, p.2 - 1 + 1) :: shiftPairs (unshiftPairs rest) = p :: rest
    have h2 : p.2 - 1 + 1 = p.2 := by omega
    rw [hrest, h2]

theorem clampInt_succ_toNat (i : Int) (L : Nat) (h : 0 ≤ i) :
    (clampInt (i + 1) 0 ((L : Int) + 1)).toNat = (clampInt i 0 L).toNat + 1 := by
  simp only [clampInt]
  omega

theorem clampInt_zero_toNat (L : Nat) : (clampInt 0 0 (L : Int)).toNat = 0 := by
  simp only [clampInt]
  omega

theorem spliceLoop_cons_shift (x : Todo) :
    ∀ (ps : List (Todo × Int)) (base : List Todo) (existing : List String),
      (∀ p ∈ ps, 0 ≤ p.2) →
      spliceLoop (shiftPairs ps) (x :: base) existing
        = x :: spliceLoop ps base existing := by
  intro ps
  induction ps with
  | nil => intro base existing _; rfl
  | cons p rest ih =>
    intro base existing h
    obtain ⟨it, i⟩ := p
    have hi : 0 ≤ i := h (it, i) (List.mem_cons_self _ _)
    have hrest : ∀ q ∈ rest, 0 ≤ q.2 := fun q hq => h q (List.mem_cons_of_mem _ hq)
    show spliceLoop ((it, i + 1) :: shiftPairs rest) (x :: base) existing
        = x :: spliceLoop ((it, i) :: rest) base existing
    simp only [spliceLoop]
    cases hk : keyMem (toKey it.id) existing
    · simp only [Bool.false_eq_true, if_false]
      have hlen : ((x :: base).length : Int) = (base.length : Int) + 1 := by
        simp [List.length_cons]
      rw [List.length_cons]
      have harith : (clampInt (i + 1) 0 ((base.length : Int) + 1)).toNat
          = (clampInt i 0 base.length).toNat + 1 := clampInt_succ_toNat i base.length hi
      rw [show ((base.length + 1 : Nat) : Int) = (base.length : Int) + 1 by push_cast; ring,
        harith]
      show spliceLoop (shiftPairs rest)
          (x :: spliceIn (clampInt i 0 base.length).toNat it base)
          (toKey it.id :: existing) = _
      exact ih _ _ hrest
    · simp only [if_true]
      exact ih base existing hrest

theorem deleted_nonneg {old ps base} (h : Deleted old ps base) :
    ∀ p ∈ ps, 0 ≤ p.2 := by
  induction h with
  | nil => intro p hp; exact absurd hp (List.not_mem_nil p)
  | keep x _ ih =>
    intro p hp
    simp only [shiftPairs, List.mem_map] at hp
    obtain ⟨q, hq, rfl⟩ := hp
    have := ih q hq
    simp only []
    omega
  | del x _ ih =>
    intro p hp
    rcases List.mem_cons.mp hp with rfl | hp2
    · simp
    · simp only [shiftPairs, List.mem_map] at hp2
      obtain ⟨q, hq, rfl⟩ := hp2
      have := ih q hq
      simp only []
      omega

theorem deleted_nil (l : List Todo) : Deleted l [] l := by
  induction l with
  | nil => exact Deleted.nil
  | cons x xs ih => exact Deleted.keep x ih

/-- Replaying the restore loop over a `Deleted` decomposition rebuilds the
original list, provided the recorded keys are pairwise distinct and none of
them is already present. -/
theorem spliceLoop_restores {old ps base} (h : Deleted old ps base) :
    ∀ existing : List String,
      (pairKeys ps).Nodup →
      (∀ p ∈ ps, keyMem (toKey p.1.id) existing = false) →
      spliceLoop ps base existing = old := by
  induction h with
  | nil => intro existing _ _; rfl
  | keep x hd ih =>
    intro existing hnd hfresh
    rw [spliceLoop_cons_shift x _ _ existing (deleted_nonneg hd)]
    refine congrArg (x :: ·) (ih existing ?_ ?_)
    · rw [pairKeys_shiftPairs] at hnd; exact hnd
    · intro p hp
      exact hfresh (p.1, p.2 + 1) (List.mem_map.mpr ⟨p, hp, rfl⟩)
  | del x hd ih =>
    intro existing hnd hfresh
    have hx : keyMem (toKey x.id) existing = false :=
      hfresh (x, 0) (List.mem_cons_self _ _)
    rename_i l ps2 l2
    show spliceLoop ((x, 0) :: shiftPairs ps2) l2 existing = x :: l
    simp only [spliceLoop, hx, Bool.false_eq_true, if_false]
    rw [clampInt_zero_toNat, spliceIn_zero,
      spliceLoop_cons_shift x _ _ _ (deleted_nonneg hd)]
    have hnd2 : (toKey x.id :: pairKeys (shiftPairs ps2)).Nodup := hnd
    rw [pairKeys_shiftPairs] at hnd2
    have hxk : toKey x.id ∉ pairKeys ps2 := (List.nodup_cons.mp hnd2).1
    refine congrArg (x :: ·) (ih (toKey x.id :: existing) ?_ ?_)
    · exact (List.nodup_cons.mp hnd2).2
    · intro p hp
      rw [keyMem_false_iff, List.mem_cons]
      push_neg
      constructor
      · intro heq
        exact hxk (heq ▸ List.mem_map.mpr ⟨p, hp, rfl⟩)
      · have := hfresh (p.1, p.2 + 1) (List.mem_cons_of_mem _ (List.mem_map.mpr ⟨p, hp, rfl⟩))
        exact keyMem_false_iff.mp this

theorem pairKeys_unshiftPairs (ps : List (Todo × Int)) :
    pairKeys (unshiftPairs ps) = pairKeys ps := by
  simp [pairKeys, unshiftPairs, List.map_map]

theorem keyMem_cons (k a : String) (ks : List String) :
    keyMem k (a :: ks) = ((a == k) || keyMem k ks) := by
  simp [keyMem]

theorem mem_of_some_getElem {l : List α} {n : Nat} {a : α} (h : l[n]? = some a) :
    a ∈ l := by
  obtain ⟨hn, rfl⟩ := List.getElem?_eq_some_iff.mp h
  exact List.getElem_mem hn

/-- Pairs listed in strictly ascending recorded-index order, each recording an
element of `old` at its index, form a `Deleted` decomposition of `old`, whose
remainder is `old` without the recorded keys. -/
theorem deleted_of_positions :
    ∀ (old : List Todo) (ps : List (Todo × Int)),
      KeyNodup old →
      ps.Pairwise (fun a b => a.2 < b.2) →
      (∀ p ∈ ps, 0 ≤ p.2 ∧ old[p.2.toNat]? = some p.1) →
      Deleted old ps (old.filter (fun t => !keyMem (toKey t.id) (pairKeys ps))) := by
  intro old
  induction old with
  | nil =>
    intro ps _ _ hpos
    cases ps with
    | nil => exact deleted_nil []
    | cons p rest =>
      have h2 := (hpos p (List.mem_cons_self _ _)).2
      rw [List.getElem?_nil] at h2
      cases h2
  | cons x l ih =>
    intro ps hnodup hasc hpos
    have hcons : (toKey x.id :: keysOf l).Nodup := hnodup
    have hKx : toKey x.id ∉ keysOf l := (List.nodup_cons.mp hcons).1
    have hKl : KeyNodup l := (List.nodup_cons.mp hcons).2
    cases ps with
    | nil =>
      have hfilter : (x :: l).filter
          (fun t => !keyMem (toKey t.id) (pairKeys ([] : List (Todo × Int)))) = x :: l := by
        simp [pairKeys, keyMem]
      rw [hfilter]
      exact deleted_nil (x :: l)
    | cons p rest =>
      obtain ⟨it, i⟩ := p
      have hp0 := hpos (it, i) (List.mem_cons_self _ _)
      have hi0 : 0 ≤ i := hp0.1
      have hasc2 := List.pairwise_cons.mp hasc
      by_cases hi : i = 0
      · subst hi
        have hx : it = x := by
          have h2 := hp0.2
          rw [show ((0 : Int)).toNat = 0 from rfl, List.getElem?_cons_zero] at h2
          exact (Option.some_inj.mp h2).symm
        subst hx
        have hrest1 : ∀ q ∈ rest, 1 ≤ q.2 := by
          intro q hq
          have hlt : (0 : Int) < q.2 := by simpa using hasc2.1 q hq
          omega
        have hasc3 : (unshiftPairs rest).Pairwise (fun a b => a.2 < b.2) := by
          unfold unshiftPairs
          rw [List.pairwise_map]
          refine hasc2.2.imp ?_
          intro a b hab
          simp only
          omega
        have hpos3 : ∀ q ∈ unshiftPairs rest, 0 ≤ q.2 ∧ l[q.2.toNat]? = some q.1 := by
          intro q hq
          simp only [unshiftPairs, List.mem_map] at hq
          obtain ⟨r, hr, rfl⟩ := hq
          have h1 := hrest1 r hr
          have h2 := (hpos r (List.mem_cons_of_mem _ hr)).2
          have h3 : r.2.toNat = (r.2 - 1).toNat + 1 := by omega
          rw [h3, List.getElem?_cons_succ] at h2
          exact ⟨show (0 : Int) ≤ r.2 - 1 by omega, h2⟩
        have hD := ih (unshiftPairs rest) hKl hasc3 hpos3
        rw [pairKeys_unshiftPairs] at hD
        have hDel := Deleted.del (x := it) hD
        rw [shift_unshift rest hrest1] at hDel
        have hfilter : (it :: l).filter
            (fun t => !keyMem (toKey t.id) (pairKeys ((it, 0) :: rest)))
            = l.filter (fun t => !keyMem (toKey t.id) (pairKeys rest)) := by
          rw [List.filter_cons]
          have hxk : keyMem (toKey it.id) (pairKeys ((it, 0) :: rest)) = true := by
            apply keyMem_iff.mpr
            show toKey it.id ∈ toKey it.id :: pairKeys rest
            exact List.mem_cons_self _ _
          simp only [hxk, Bool.not_true, Bool.false_eq_true, if_false]
          apply List.filter_congr
          intro t ht
          have hne : (toKey it.id == toKey t.id) = false := by
            apply beq_eq_false_iff_ne.mpr
            intro he
            exact hKx (he ▸ List.mem_map.mpr ⟨t, ht, rfl⟩)
          show (!keyMem (toKey t.id) (toKey it.id :: pairKeys rest)) = _
          rw [keyMem_cons, hne, Bool.false_or]
        rw [hfilter]
        exact hDel
      · have hall1 : ∀ q ∈ (it, i) :: rest, 1 ≤ q.2 := by
          intro q hq
          rcases List.mem_cons.mp hq with rfl | hq2
          · show (1 : Int) ≤ i
            omega
          · have hlt : i < q.2 := by simpa using hasc2.1 q hq2
            omega
        have hmemL : ∀ q ∈ (it, i) :: rest, q.1 ∈ l := by
          intro q hq
          have h1 := hall1 q hq
          have h2 := (hpos q hq).2
          have h3 : q.2.toNat = (q.2 - 1).toNat + 1 := by omega
          rw [h3, List.getElem?_cons_succ] at h2
          exact mem_of_some_getElem h2
        have hxk : keyMem (toKey x.id) (pairKeys ((it, i) :: rest)) = false := by
          rw [keyMem_false_iff]
          intro hmem
          obtain ⟨q, hq, hqe⟩ := List.mem_map.mp hmem
          exact hKx (hqe ▸ List.mem_map.mpr ⟨q.1, hmemL q hq, rfl⟩)
        have hasc3 : (unshiftPairs ((it, i) :: rest)).Pairwise (fun a b => a.2 < b.2) := by
          unfold unshiftPairs
          rw [List.pairwise_map]
          refine hasc.imp ?_
          intro a b hab
          simp only
          omega
        have hpos3 : ∀ q ∈ unshiftPairs ((it, i) :: rest),
            0 ≤ q.2 ∧ l[q.2.toNat]? = some q.1 := by
          intro q hq
          simp only [unshiftPairs, List.mem_map] at hq
          obtain ⟨r, hr, rfl⟩ := hq
          have h1 := hall1 r hr
          have h2 := (hpos r hr).2
          have h3 : r.2.toNat = (r.2 - 1).toNat + 1 := by omega
          rw [h3, List.getElem?_cons_succ] at h2
          exact ⟨show (0 : Int) ≤ r.2 - 1 by omega, h2⟩
        have hD := ih (unshiftPairs ((it, i) :: rest)) hKl hasc3 hpos3
        rw [pairKeys_unshiftPairs] at hD
        have hKeep := Deleted.keep (x := x) hD
        rw [shift_unshift _ hall1] at hKeep
        have hfilter : (x :: l).filter
            (fun t => !keyMem (toKey t.id) (pairKeys ((it, i) :: rest)))
            = x :: l.filter (fun t => !keyMem (toKey t.id) (pairKeys ((it, i) :: rest))) := by
          rw [List.filter_cons]
          simp only [hxk, Bool.not_false, if_true]
        rw [hfilter]
        exact hKeep

theorem zip_map_self (l : List Todo) (f : Todo → Int) :
    l.zip (l.map f) = l.map (fun x => (x, f x)) := by
  induction l with
  | nil => rfl
  | cons x xs ih => simp [List.zip_cons_cons, ih]

theorem keyMem_perm {ks ks2 : List String} (h : ks.Perm ks2) (k : String) :
    keyMem k ks = keyMem k ks2 := by
  cases hk : keyMem k ks
  · have h1 := keyMem_false_iff.mp hk
    have h2 : k ∉ ks2 := fun hm => h1 (h.mem_iff.mpr hm)
    exact (keyMem_false_iff.mpr h2).symm
  · have h1 := keyMem_iff.mp hk
    exact (keyMem_iff.mpr (h.mem_iff.mp h1)).symm

/-- `findIndex` by key finds the item itself when keys are unique: the result
is nonnegative and looking the collection up at it yields the item. -/
theorem findIndexKey_spec :
    ∀ (old : List Todo) (it : Todo), KeyNodup old → it ∈ old →
      0 ≤ findIndexKey (toKey it.id) old ∧
      old[(findIndexKey (toKey it.id) old).toNat]? = some it := by
  intro old
  induction old with
  | nil => intro it _ hmem; exact absurd hmem (List.not_mem_nil it)
  | cons t ts ih =>
    intro it hN hmem
    have hcons : (toKey t.id :: keysOf ts).Nodup := hN
    have hhead : toKey t.id ∉ keysOf ts := (List.nodup_cons.mp hcons).1
    have htail : KeyNodup ts := (List.nodup_cons.mp hcons).2
    by_cases he : toKey t.id = toKey it.id
    · have hit : it = t := by
        rcases List.mem_cons.mp hmem with rfl | h2
        · rfl
        · exact absurd (he ▸ List.mem_map.mpr ⟨it, h2, rfl⟩) hhead
      subst hit
      simp only [findIndexKey, he, if_true]
      exact ⟨le_refl 0, by rw [show ((0 : Int)).toNat = 0 from rfl, List.getElem?_cons_zero]⟩
    · have hit : it ∈ ts := by
        rcases List.mem_cons.mp hmem with rfl | h2
        · exact absurd rfl he
        · exact h2
      obtain ⟨hr0, hrget⟩ := ih it htail hit
      have hr1 : findIndexKey (toKey it.id) ts ≠ -1 := by omega
      simp only [findIndexKey, he, if_false, hr1]
      refine ⟨by omega, ?_⟩
      have h3 : (findIndexKey (toKey it.id) ts + 1).toNat
          = (findIndexKey (toKey it.id) ts).toNat + 1 := by omega
      rw [h3, List.getElem?_cons_succ]
      exact hrget

/-- C3: for every Collection with unique keys and every single or batch delete
request over items of the Collection (distinct keys), invoking undo before the
grace window elapses cancels the timer entry and reinserts the removed items
at their recorded original indices — the restore loop applies them in
ascending index order — restoring the Collection exactly; no remote delete is
ever issued and a later timer fire is a complete no-op.  The spec's three-item
example (delete index 1, undo) is the witness. -/
theorem C3_undo_restores_original :
    ∀ (old items : List Todo),
      KeyNodup old →
      (items.map (fun t => toKey t.id)).Nodup →
      (∀ it ∈ items, it ∈ old) →
      (∀ (todo : Todo) (s : SysState),
        undoSingle todo (armSingle todo s).2 (armSingle todo s).1
          = undoBulk [todo] (armBulk [todo] s).2 (armBulk [todo] s).1) ∧
      (undoBulk items (armBulk items (initState (some old))).2
          (armBulk items (initState (some old))).1).cache = some old ∧
      (undoBulk items (armBulk items (initState (some old))).2
          (armBulk items (initState (some old))).1).pending = false ∧
      (undoBulk items (armBulk items (initState (some old))).2
          (armBulk items (initState (some old))).1).issued = [] ∧
      ∀ outcome : Ident → Bool,
        fireStep items outcome
            (undoBulk items (armBulk items (initState (some old))).2
              (armBulk items (initState (some old))).1)
          = undoBulk items (armBulk items (initState (some old))).2
              (armBulk items (initState (some old))).1 := by
  intro old items hKN hIK hMem
  refine ⟨fun todo s => rfl, ?_, rfl, rfl, fun _ => rfl⟩
  show restoreIntoCache items
      (some (items.map (fun it => findIndexKey (toKey it.id) old)))
      (some (old.filter (fun t =>
        !keyMem (toKey t.id) ((items.map (fun t => t.id)).map toKey)))) = some old
  simp only [restoreIntoCache]
  rw [if_pos (List.length_map items (fun it => findIndexKey (toKey it.id) old))]
  rw [zip_map_self items (fun it => findIndexKey (toKey it.id) old)]
  have hspec : ∀ x ∈ items,
      0 ≤ findIndexKey (toKey x.id) old ∧
      old[(findIndexKey (toKey x.id) old).toNat]? = some x :=
    fun x hx => findIndexKey_spec old x hKN (hMem x hx)
  have hperm :
      (jsSortBy idxLt (items.map (fun x => (x, findIndexKey (toKey x.id) old)))).Perm
        (items.map (fun x => (x, findIndexKey (toKey x.id) old))) :=
    jsSortBy_perm idxLt _
  have hmemz : ∀ p ∈ jsSortBy idxLt
        (items.map (fun x => (x, findIndexKey (toKey x.id) old))),
      ∃ x ∈ items, (x, findIndexKey (toKey x.id) old) = p := by
    intro p hp
    exact List.mem_map.mp (hperm.mem_iff.mp hp)
  have hpos : ∀ p ∈ jsSortBy idxLt
        (items.map (fun x => (x, findIndexKey (toKey x.id) old))),
      0 ≤ p.2 ∧ old[p.2.toNat]? = some p.1 := by
    intro p hp
    obtain ⟨x, hx, rfl⟩ := hmemz p hp
    exact hspec x hx
  have hle : (jsSortBy idxLt
        (items.map (fun x => (x, findIndexKey (toKey x.id) old)))).Pairwise
      (fun a b => a.2 ≤ b.2) :=
    jsSortBy_sorted (fun p : Todo × Int => p.2)
      (items.map (fun x => (x, findIndexKey (toKey x.id) old)))
  have hitemsN : items.Nodup := List.Nodup.of_map _ hIK
  have hfinj : ∀ x ∈ items, ∀ y ∈ items,
      findIndexKey (toKey x.id) old = findIndexKey (toKey y.id) old → x = y := by
    intro x hx y hy hxy
    have h1 := (hspec x hx).2
    have h2 := (hspec y hy).2
    rw [hxy, h2] at h1
    exact (Option.some_inj.mp h1).symm
  have hidxN : (items.map (fun x => findIndexKey (toKey x.id) old)).Nodup :=
    List.Nodup.map_on hfinj hitemsN
  have hzmap : (items.map (fun x => (x, findIndexKey (toKey x.id) old))).map
      (fun p : Todo × Int => p.2) = items.map (fun x => findIndexKey (toKey x.id) old) := by
    simp [List.map_map]
  have hsortedIdxN : ((jsSortBy idxLt
        (items.map (fun x => (x, findIndexKey (toKey x.id) old)))).map
      (fun p : Todo × Int => p.2)).Nodup := by
    rw [(hperm.map (fun p : Todo × Int => p.2)).nodup_iff, hzmap]
    exact hidxN
  have hne : (jsSortBy idxLt
        (items.map (fun x => (x, findIndexKey (toKey x.id) old)))).Pairwise
      (fun a b => a.2 ≠ b.2) := List.pairwise_map.mp hsortedIdxN
  have hstrict : (jsSortBy idxLt
        (items.map (fun x => (x, findIndexKey (toKey x.id) old)))).Pairwise
      (fun a b => a.2 < b.2) := by
    refine (hle.and hne).imp ?_
    intro a b h
    exact lt_of_le_of_ne h.1 h.2
  have hD := deleted_of_positions old
    (jsSortBy idxLt (items.map (fun x => (x, findIndexKey (toKey x.id) old))))
    hKN hstrict hpos
  have hpkz : pairKeys (items.map (fun x => (x, findIndexKey (toKey x.id) old)))
      = items.map (fun t => toKey t.id) := by
    simp [pairKeys, List.map_map]
  have hpkperm : (pairKeys (jsSortBy idxLt
        (items.map (fun x => (x, findIndexKey (toKey x.id) old))))).Perm
      (items.map (fun t => toKey t.id)) := by
    have h1 := hperm.map (fun p : Todo × Int => toKey p.1.id)
    rw [show (items.map (fun x => (x, findIndexKey (toKey x.id) old))).map
        (fun p : Todo × Int => toKey p.1.id) = items.map (fun t => toKey t.id) by
      simp [List.map_map]] at h1
    exact h1
  have hpkN : (pairKeys (jsSortBy idxLt
        (items.map (fun x => (x, findIndexKey (toKey x.id) old))))).Nodup :=
    hpkperm.nodup_iff.mpr hIK
  have hfiltereq : old.filter (fun t =>
        !keyMem (toKey t.id) ((items.map (fun t => t.id)).map toKey))
      = old.filter (fun t => !keyMem (toKey t.id) (pairKeys (jsSortBy idxLt
          (items.map (fun x => (x, findIndexKey (toKey x.id) old)))))) := by
    apply List.filter_congr
    intro t _
    have hbk : (items.map (fun t => t.id)).map toKey
        = items.map (fun t => toKey t.id) := by
      simp [List.map_map]
    have hkm := keyMem_perm hpkperm (toKey t.id)
    rw [hbk, ← hkm]
  rw [hfiltereq]
  have hfresh : ∀ p ∈ jsSortBy idxLt
        (items.map (fun x => (x, findIndexKey (toKey x.id) old))),
      keyMem (toKey p.1.id)
        ((old.filter (fun t => !keyMem (toKey t.id) (pairKeys (jsSortBy idxLt
            (items.map (fun x => (x, findIndexKey (toKey x.id) old))))))).map
          (fun t => toKey t.id)) = false := by
    intro p hp
    rw [keyMem_false_iff]
    intro hmem
    obtain ⟨t, ht, hte⟩ := List.mem_map.mp hmem
    have h1 := (List.mem_filter.mp ht).2
    rw [Bool.not_eq_true'] at h1
    exact (keyMem_false_iff.mp h1) (hte ▸ List.mem_map.mpr ⟨p, hp, rfl⟩)
  exact congrArg some (spliceLoop_restores hD _ hpkN hfresh)

/-- Witness for C3: the spec's example — delete the item at index 1 of a
3-item collection, undo before the window elapses — restores the exact
original order, with the timer cancelled and no remote delete issued. -/
theorem C3_undo_restores_original_witness :
    (undoBulk [⟨.num 2, "Clean", true⟩]
        (armBulk [⟨.num 2, "Clean", true⟩] (initState (some
          [⟨.num 1, "Buy milk", false⟩, ⟨.num 2, "Clean", true⟩,
            ⟨.num 3, "Read", false⟩]))).2
        (armBulk [⟨.num 2, "Clean", true⟩] (initState (some
          [⟨.num 1, "Buy milk", false⟩, ⟨.num 2, "Clean", true⟩,
            ⟨.num 3, "Read", false⟩]))).1).cache
      = some [⟨.num 1, "Buy milk", false⟩, ⟨.num 2, "Clean", true⟩,
          ⟨.num 3, "Read", false⟩] ∧
    (undoBulk [⟨.num 2, "Clean", true⟩]
        (armBulk [⟨.num 2, "Clean", true⟩] (initState (some
          [⟨.num 1, "Buy milk", false⟩, ⟨.num 2, "Clean", true⟩,
            ⟨.num 3, "Read", false⟩]))).2
        (armBulk [⟨.num 2, "Clean", true⟩] (initState (some
          [⟨.num 1, "Buy milk", false⟩, ⟨.num 2, "Clean", true⟩,
            ⟨.num 3, "Read", false⟩]))).1).pending = false ∧
    (undoBulk [⟨.num 2, "Clean", true⟩]
        (armBulk [⟨.num 2, "Clean", true⟩] (initState (some
          [⟨.num 1, "Buy milk", false⟩, ⟨.num 2, "Clean", true⟩,
            ⟨.num 3, "Read", false⟩]))).2
        (armBulk [⟨.num 2, "Clean", true⟩] (initState (some
          [⟨.num 1, "Buy milk", false⟩, ⟨.num 2, "Clean", true⟩,
            ⟨.num 3, "Read", false⟩]))).1).issued = [] := by
  have h := C3_undo_restores_original
    [⟨.num 1, "Buy milk", false⟩, ⟨.num 2, "Clean", true⟩, ⟨.num 3, "Read", false⟩]
    [⟨.num 2, "Clean", true⟩] (by decide) (by decide) (by decide)
  exact ⟨h.2.1, h.2.2.1, h.2.2.2.1⟩
